import Mathlib

/-!
Verification development for the `behaviortree-rs` repository: a shallow
embedding of the node evaluators, the runtime `Child` wrappers and the
`BehaviorTree` driver of both its synchronous and cooperative-async
variants, together with proofs about their tick/run semantics.

Conventions of the embedding:
* `Status` mirrors `behaviortree_common::Status` / `behaviortree::Status`.
* A leaf or child evaluator hidden behind `Box<dyn Action<S>>` is modelled
  as a deterministic `Proc`: a script assigning, to each tick index, the
  `Status` the evaluator returns on that tick, plus the number of ticks
  performed so far.  The time delta `dt` and the shared environment `S`
  are threaded through the real code unchanged and never inspected by the
  composite nodes, so they are folded into the script.  Resetting a
  process restarts its script.
* Rust panics (`unreachable!()`, `todo!()`) are modelled with
  `Except Panic`.
* `f64` quantities (`target`, `elapsed`, `dt` of the Wait node) are
  modelled as rationals; the additions and comparisons performed by the
  code on the inputs considered here are exact in `f64` as well.
-/

/-- `behaviortree_common::Status`: the tri-state result of a node tick. -/
inductive Status where
  | success
  | failure
  | running
deriving DecidableEq, Repr

/-- Panic-class outcomes (`unreachable!()` / `todo!()` in the source). -/
inductive Panic where
  | unreachableReached
  | todoReached
deriving DecidableEq, Repr

/-- Abstract child evaluator: a deterministic script of per-tick statuses
together with the number of ticks it has already consumed. -/
structure Proc where
  script : Nat → Status
  ticks : Nat

/-- One tick of an abstract child (`Box<dyn Action<S>>::tick`). -/
def Proc.tick (p : Proc) : Status × Proc :=
  (p.script p.ticks, { p with ticks := p.ticks + 1 })

/-- Reset of an abstract child: back to its freshly constructed state. -/
def Proc.reset (p : Proc) : Proc :=
  { p with ticks := 0 }

/-- The status the abstract child would report on its next tick. -/
def Proc.now (p : Proc) : Status :=
  p.script p.ticks

/-- A process `p` completes after `t` further ticks with terminal status
`st`: it reports `Running` for the next `t` ticks and `st` on the tick
after those. -/
def Proc.completes (p : Proc) (t : Nat) (st : Status) : Prop :=
  (∀ j < t, p.script (p.ticks + j) = Status.running) ∧ p.script (p.ticks + t) = st

/-- State of `behaviortree::behavior_nodes::sequence_node::SequenceState`:
the `VecDeque` of not-yet-started children, the node's own cached status,
the currently active child with its last observed status, and the
`child_states` observer mirror (status component; the display-state
component carries no control information). -/
structure SequenceState where
  behaviors : List Proc
  status : Option Status
  current : Proc
  currentStatus : Option Status
  childStatuses : List (Option Status)

/-- `SequenceState::new` for a non-empty child vector `c :: cs`: the head
is popped into `current_action`, the rest stays queued. -/
def SequenceState.new (c : Proc) (cs : List Proc) : SequenceState :=
  { behaviors := cs
    status := none
    current := c
    currentStatus := none
    childStatuses := [none] }

/-- Replace the last element of a list (the `*child_states.last_mut().unwrap() = _` write). -/
def setLast (l : List α) (a : α) : List α :=
  match l with
  | [] => []
  | [_] => [a]
  | x :: xs => x :: setLast xs a

/-- The body of `SequenceState::tick` after the completed-status guard:
tick the active child, record its status in the observer mirror, and
combine: child `Success` pops the next queued child (overall `Running`)
or finishes the sequence (`Success`); child `Failure`/`Running` is passed
through. -/
def SequenceState.tickStep (s : SequenceState) : Status × SequenceState :=
    let (childStatus, cur') := s.current.tick
    let mirror := setLast s.childStatuses (some childStatus)
    match childStatus with
    | Status.success =>
      match s.behaviors with
      | b :: rest =>
        (Status.running,
          { behaviors := rest
            status := some Status.running
            current := b
            currentStatus := none
            childStatuses := mirror ++ [none] })
      | [] =>
        (Status.success,
          { behaviors := []
            status := some Status.success
            current := cur'
            currentStatus := some Status.success
            childStatuses := mirror })
    | st =>
      (st,
        { behaviors := s.behaviors
          status := some st
          current := cur'
          currentStatus := some st
          childStatuses := mirror })

/-- `SequenceState::tick`: return the cached status once the sequence is
complete (`// Once sequence is complete return the completed status`);
otherwise perform one step. -/
def SequenceState.tick (s : SequenceState) : Status × SequenceState :=
  match s.status with
  | some st =>
    if st ≠ Status.running then (st, s)
    else SequenceState.tickStep s
  | none => SequenceState.tickStep s

/-- Run a sequence node for `n` consecutive external ticks, collecting
the statuses it reports. -/
def SequenceState.run (s : SequenceState) : Nat → List Status × SequenceState
  | 0 => ([], s)
  | n + 1 =>
    let (st, s') := s.tick
    let (sts, s'') := SequenceState.run s' n
    (st :: sts, s'')

/-- Number of external ticks a prefix of succeeding children consumes:
each child with time-to-success `t` takes `t + 1` sequence ticks. -/
def seqTotalTicks (pre : List (Proc × Nat)) : Nat :=
  (pre.map (fun p => p.2 + 1)).sum

/-- A tick-able evaluator over state type `σ` (the `Action<S>` interface:
only `tick` matters for status flow). -/
structure Ev (σ : Type) where
  tick : σ → Status × σ

/-- The evaluator of an abstract child process. -/
def procEv : Ev Proc :=
  ⟨Proc.tick⟩

/-- Run an evaluator for `n` consecutive ticks, collecting statuses. -/
def Ev.run (ev : Ev σ) (s : σ) : Nat → List Status × σ
  | 0 => ([], s)
  | n + 1 =>
    let (st, s') := ev.tick s
    let (sts, s'') := ev.run s' n
    (st :: sts, s'')

/-- The status mapping of `InvertState::tick`/`AsyncInvertState::run`:
`Success -> Failure`, `Failure -> Success`, `Running -> Running`. -/
def invertStatus : Status → Status
  | Status.success => Status.failure
  | Status.failure => Status.success
  | Status.running => Status.running

/-- State of `behaviortree::behavior_nodes::invert_node::InvertState`,
generic over the wrapped child's evaluator state. -/
structure InvertState (σ : Type) where
  status : Option Status
  current : σ
  currentStatus : Option Status

/-- `InvertState::new`. -/
def InvertState.new (c : σ) : InvertState σ :=
  { status := none, current := c, currentStatus := none }

/-- Body of `InvertState::tick` after the completed-status guard: tick
the child, record its status, and report the inverted status. -/
def InvertState.tickStep (ev : Ev σ) (s : InvertState σ) : Status × InvertState σ :=
  let (childStatus, cur') := ev.tick s.current
  let st := invertStatus childStatus
  (st, { status := some st, current := cur', currentStatus := some childStatus })

/-- `InvertState::tick`: return the cached status once terminal,
otherwise delegate to the child and invert. -/
def InvertState.tick (ev : Ev σ) (s : InvertState σ) : Status × InvertState σ :=
  match s.status with
  | some st =>
    if st ≠ Status.running then (st, s)
    else InvertState.tickStep ev s
  | none => InvertState.tickStep ev s

/-- The evaluator of an Invert node wrapping a child evaluator. -/
def invertEv (ev : Ev σ) : Ev (InvertState σ) :=
  ⟨InvertState.tick ev⟩

/-- State of `behaviortree::behavior_nodes::wait_node::WaitState` (sync
variant): fixed `target`, accumulated `elapsed`.  `f64` modelled as `Rat`. -/
structure WaitState where
  target : Rat
  elapsed : Rat
deriving DecidableEq, Repr

/-- `WaitState::new(target)`: `elapsed` starts at `0.0`. -/
def WaitState.new (target : Rat) : WaitState :=
  { target := target, elapsed := 0 }

/-- `WaitState::tick`: the entry guard `match elapsed >= target { true =>
unreachable!() }` panics when already at or past the target; otherwise
accumulate `dt` and report `Success` when the target is reached, else
`Running`. -/
def WaitState.tick (dt : Rat) (w : WaitState) : Except Panic (Status × WaitState) :=
  if w.target ≤ w.elapsed then Except.error Panic.unreachableReached
  else
    let elapsed := w.elapsed + dt
    if w.target ≤ elapsed then
      Except.ok (Status.success, { w with elapsed := elapsed })
    else
      Except.ok (Status.running, { w with elapsed := elapsed })

/-- `WaitState::reset`: `elapsed = 0.0`. -/
def WaitState.reset (w : WaitState) : WaitState :=
  { w with elapsed := 0 }

/-- State of `async_behaviortree::behavior_nodes::AsyncSequenceState`:
the children plus the `completed` flag.  A child's full cooperative
`run` (which may span many executor ticks) is abstracted to the boolean
it eventually returns, which is all the sequence's control flow inspects. -/
structure AsyncSequenceState where
  children : List Bool
  completed : Bool
deriving DecidableEq, Repr

/-- The child loop of `AsyncSequenceState::run`: children run in order,
stopping at the first `false` (with a scheduler yield between siblings,
which does not affect the returned value). -/
def asyncSeqFold : List Bool → Bool
  | [] => true
  | c :: rest => if c then asyncSeqFold rest else false

/-- `AsyncSequenceState::run`: `match self.completed { true =>
unreachable!() }`, then run children in declared order until the first
failure, set `completed`, and return the combined status. -/
def AsyncSequenceState.run (s : AsyncSequenceState) : Except Panic (Bool × AsyncSequenceState) :=
  if s.completed then Except.error Panic.unreachableReached
  else Except.ok (asyncSeqFold s.children, { s with completed := true })

/-- State of `async_behaviortree::behavior_nodes::AsyncInvertState`:
the wrapped child (abstracted to its eventual run result) plus the
`completed` flag. -/
structure AsyncInvertState where
  child : Bool
  completed : Bool
deriving DecidableEq, Repr

/-- `AsyncInvertState::run`: `match self.completed { true =>
unreachable!() }`, then `!child.run(..).await`, setting `completed`. -/
def AsyncInvertState.run (s : AsyncInvertState) : Except Panic (Bool × AsyncInvertState) :=
  if s.completed then Except.error Panic.unreachableReached
  else Except.ok (!s.child, { s with completed := true })

/-- `behaviortree::child::Child` (the `behaviortree_common` generation):
the compiled evaluator plus the observable status cell backed by a
`tokio::sync::watch` channel (`None` initially). -/
structure ChildW where
  proc : Proc
  status : Option Status

/-- `Child::new` via `watch::channel(None)`: fresh cell. -/
def ChildW.fresh (p : Proc) : ChildW :=
  { proc := p, status := none }

/-- `Child::tick`: tick the action, then `send_replace(Some(status))`. -/
def ChildW.tick (c : ChildW) : Status × ChildW :=
  let (st, p) := c.proc.tick
  (st, { proc := p, status := some st })

/-- `Child::reset`: resets the action only; the status cell is not
written (it keeps its last value). -/
def ChildW.reset (c : ChildW) : ChildW :=
  { c with proc := c.proc.reset }

/-- State of `behaviortree::behavior_nodes::loop_node::LoopState`: the
wrapped runtime child. -/
structure LoopState where
  child : ChildW

/-- `LoopState::tick`: if the child's last status is terminal, reset the
child first; then tick the child, discard its status, and always report
`Running`. -/
def LoopState.tick (l : LoopState) : Status × LoopState :=
  let c :=
    match l.child.status with
    | some st => if st ≠ Status.running then l.child.reset else l.child
    | none => l.child
  let (_, c') := c.tick
  (Status.running, { child := c' })

/-- `LoopState::reset`: reset the wrapped child. -/
def LoopState.reset (l : LoopState) : LoopState :=
  { child := l.child.reset }

/-- External operations performed on a runtime `Child`. -/
inductive ChildOp where
  | tick
  | reset
deriving DecidableEq, Repr

/-- Execute a list of operations on a `Child`, in order. -/
def ChildW.exec (ops : List ChildOp) (c : ChildW) : ChildW :=
  match ops with
  | [] => c
  | ChildOp.tick :: rest => ChildW.exec rest (c.tick).2
  | ChildOp.reset :: rest => ChildW.exec rest c.reset

/-- `async_behaviortree::async_child::AsyncChild` with the full
cooperative `run` of its action abstracted to the boolean it eventually
returns; `status` is the observable watch cell. -/
structure AsyncChildW where
  result : Bool
  status : Option Status

/-- Boolean-to-status conversion inside `AsyncChild::run`. -/
def statusOfBool (b : Bool) : Status :=
  if b then Status.success else Status.failure

/-- `AsyncChild::run`: `send_replace(Some(Running))` first, then run the
action to completion, then one terminal `send_replace`.  Returns the
ordered list of cell writes, the final child, and the returned boolean. -/
def AsyncChildW.run (c : AsyncChildW) : List (Option Status) × AsyncChildW × Bool :=
  ([some Status.running, some (statusOfBool c.result)],
    { c with status := some (statusOfBool c.result) }, c.result)

/-- `AsyncChild::reset`: resets the action only; the status cell is not
written. -/
def AsyncChildW.reset (c : AsyncChildW) : AsyncChildW :=
  { c with result := c.result }

/-- `behaviortree::behavior_interface::Child` (the `RefCell` generation
used by `BehaviorTree` in `behaviortree.rs`): evaluator plus status
cell. -/
structure ChildB where
  proc : Proc
  status : Option Status

/-- `Child::tick` of that generation: tick the action and record the
returned status in the cell. -/
def ChildB.tick (c : ChildB) : Status × ChildB :=
  let (st, p) := c.proc.tick
  (st, { proc := p, status := some st })

/-- `Child::reset` of that generation: reset the action and clear the
status cell to `None`. -/
def ChildB.reset (c : ChildB) : ChildB :=
  { proc := c.proc.reset, status := none }

/-- `behaviortree::behaviortree::BehaviorTreePolicy`. -/
inductive BehaviorTreePolicy where
  | reloadOnCompletion
  | retainOnCompletion
deriving DecidableEq, Repr

/-- `behaviortree::behaviortree::BehaviorTree`: completion policy plus
the root child (the immutable `behavior` schema field is irrelevant to
tick flow and omitted). -/
structure BehaviorTree where
  policy : BehaviorTreePolicy
  child : ChildB

/-- `BehaviorTree::reset`: reset the root child. -/
def BehaviorTree.reset (bt : BehaviorTree) : BehaviorTree :=
  { bt with child := bt.child.reset }

/-- `BehaviorTree::tick`: if the root's last status is terminal, either
return it unchanged (`RetainOnCompletion`) or reset first
(`ReloadOnCompletion`) and fall through to ticking the root. -/
def BehaviorTree.tick (bt : BehaviorTree) : Status × BehaviorTree :=
  match bt.child.status with
  | some st =>
    if st ≠ Status.running then
      match bt.policy with
      | BehaviorTreePolicy.reloadOnCompletion =>
        let bt' := bt.reset
        let (st', c') := bt'.child.tick
        (st', { bt' with child := c' })
      | BehaviorTreePolicy.retainOnCompletion => (st, bt)
    else
      let (st', c') := bt.child.tick
      (st', { bt with child := c' })
  | none =>
    let (st', c') := bt.child.tick
    (st', { bt with child := c' })

/-- `behaviortree_common::Behavior<A>`: the declarative schema.  The leaf
payload `A` is abstracted to an opaque tag. -/
inductive Behavior where
  | action (a : Nat)
  | wait (target : Rat)
  | invert (child : Behavior)
  | sequence (children : List Behavior)
  | select (children : List Behavior)
  | loop (child : Behavior)
  | whileAll (conditions : List Behavior) (child : Behavior)

/-- A compiled synchronous runtime node, mirroring which state each arm
of `Child::from_behavior_with_state_and_status` constructs. -/
inductive CompiledNode where
  | action (a : Nat)
  | wait (target : Rat)
  | invert (child : CompiledNode)
  | sequence (children : List CompiledNode)
  | select (children : List CompiledNode)
  | loop (child : CompiledNode)

mutual

/-- `behaviortree::child::Child::from_behavior_with_state_and_status`:
compile a schema into a synchronous runtime node.  The `WhileAll` arm is
`todo!()` in the source and panics.  The snapshot's `match` shows no
`Loop` arm although the crate's own tests compile `Behavior::Loop`
trees; that arm compiles the single wrapped child recursively into the
`LoopState` wrapper (spec §4.7), which is the only shape consistent with
the present `LoopState`. -/
def compileSync : Behavior → Except Panic CompiledNode
  | Behavior.action a => Except.ok (CompiledNode.action a)
  | Behavior.wait t => Except.ok (CompiledNode.wait t)
  | Behavior.invert b =>
    match compileSync b with
    | Except.error e => Except.error e
    | Except.ok c => Except.ok (CompiledNode.invert c)
  | Behavior.sequence bs =>
    match compileSyncList bs with
    | Except.error e => Except.error e
    | Except.ok cs => Except.ok (CompiledNode.sequence cs)
  | Behavior.select bs =>
    match compileSyncList bs with
    | Except.error e => Except.error e
    | Except.ok cs => Except.ok (CompiledNode.select cs)
  | Behavior.loop b =>
    match compileSync b with
    | Except.error e => Except.error e
    | Except.ok c => Except.ok (CompiledNode.loop c)
  | Behavior.whileAll _ _ => Except.error Panic.todoReached

/-- Compile a list of sibling schemas in order, propagating the first
panic. -/
def compileSyncList : List Behavior → Except Panic (List CompiledNode)
  | [] => Except.ok []
  | b :: rest =>
    match compileSync b with
    | Except.error e => Except.error e
    | Except.ok c =>
      match compileSyncList rest with
      | Except.error e => Except.error e
      | Except.ok cs => Except.ok (c :: cs)

end

mutual

/-- Does a schema contain a `WhileAll` node anywhere? -/
def containsWhileAll : Behavior → Bool
  | Behavior.action _ => false
  | Behavior.wait _ => false
  | Behavior.invert b => containsWhileAll b
  | Behavior.sequence bs => containsWhileAllList bs
  | Behavior.select bs => containsWhileAllList bs
  | Behavior.loop b => containsWhileAll b
  | Behavior.whileAll _ _ => true

/-- Does any schema in the list contain a `WhileAll` node? -/
def containsWhileAllList : List Behavior → Bool
  | [] => false
  | b :: rest => containsWhileAll b || containsWhileAllList rest

end

/-- Phase of one `AsyncWhileAll::handle_child` branch inside its
`loop`: about to `child.run(..)` its `iter`-th pass, about to
`yield_now()`, about to `child.reset(..)`, or finished
(`run_until_cancelled` returned). -/
inductive WABranchPhase where
  | toRun (iter : Nat)
  | toYield (iter : Nat)
  | toReset (iter : Nat)
  | done
deriving DecidableEq, Repr

def WABranchPhase.isDone : WABranchPhase → Bool
  | WABranchPhase.done => true
  | _ => false

/-- One branch of `AsyncWhileAll::run`: a guard (`allow_failure = true`)
or the payload child (`allow_failure = false`), with the child's
successive complete `run` results given by `script` (pass `j` returns
`script j`). -/
structure WABranch where
  allowFailure : Bool
  script : Nat → Bool
  phase : WABranchPhase

/-- Externally visible work of a branch: a completed `child.run` pass or
a `child.reset`. -/
inductive WAEvent where
  | ran (branch : Nat) (iter : Nat) (result : Bool)
  | didReset (branch : Nat) (iter : Nat)
deriving DecidableEq, Repr

/-- Global state of one `AsyncWhileAll::run` invocation: the branches
(guards then payload), the `CancellationToken` flag, and the trace of
visible work performed so far. -/
structure WAState where
  branches : List WABranch
  cancelled : Bool
  trace : List WAEvent

/-- Poll branch `i` once, as the cooperative executor does.
`run_until_cancelled` is biased towards cancellation, so a cancelled
branch goes `done` without performing work; otherwise the branch
performs its next atomic unit of work.  A full `child.run` pass is one
unit because the branch holds the shared `runner` mutex across the whole
pass, so no other branch can interleave visible work with it; a guard
whose pass returns `false` breaks out of the loop and calls
`failure_token.cancel()` in the same synchronous step. -/
def pollBranch (i : Nat) (cancelled : Bool) (b : WABranch) :
    WABranch × Bool × List WAEvent :=
  match b.phase with
  | WABranchPhase.done => (b, cancelled, [])
  | WABranchPhase.toRun j =>
    if cancelled then ({ b with phase := WABranchPhase.done }, cancelled, [])
    else
      let r := b.script j
      if b.allowFailure && !r then
        ({ b with phase := WABranchPhase.done }, true, [WAEvent.ran i j r])
      else
        ({ b with phase := WABranchPhase.toYield j }, cancelled, [WAEvent.ran i j r])
  | WABranchPhase.toYield j =>
    if cancelled then ({ b with phase := WABranchPhase.done }, cancelled, [])
    else ({ b with phase := WABranchPhase.toReset j }, cancelled, [])
  | WABranchPhase.toReset j =>
    if cancelled then ({ b with phase := WABranchPhase.done }, cancelled, [])
    else ({ b with phase := WABranchPhase.toRun (j + 1) }, cancelled, [WAEvent.didReset i j])

/-- One scheduler step: poll branch `i`. -/
def waStep (i : Nat) (s : WAState) : WAState :=
  match s.branches[i]? with
  | none => s
  | some b =>
    let (b', c', evs) := pollBranch i s.cancelled b
    { branches := s.branches.set i b'
      cancelled := c'
      trace := s.trace ++ evs }

/-- Has `join_all` completed (every branch future finished)? -/
def WAState.allDone (s : WAState) : Bool :=
  s.branches.all (fun b => b.phase.isDone)

/-- Drive one `AsyncWhileAll::run` invocation under an arbitrary
cooperative schedule `sched` for at most `n` scheduler steps, starting
at step index `t`.  `some result` is returned once `join_all` finishes —
and `AsyncWhileAll::run` then returns the hard-coded `false` — while
`none` means the node is still running. -/
def waRun (sched : Nat → Nat) (t : Nat) (s : WAState) : Nat → Option Bool × WAState
  | 0 => (if s.allDone then some false else none, s)
  | n + 1 =>
    if s.allDone then (some false, s)
    else waRun sched (t + 1) (waStep (sched t % s.branches.length) s) n

/-- Initial state of `AsyncWhileAll::run`: one branch per guard with
`allow_failure = true`, then the payload child with
`allow_failure = false`; a fresh cancellation token and no work done. -/
def waInit (guards : List (Nat → Bool)) (payload : Nat → Bool) : WAState :=
  { branches := guards.map (fun g => ⟨true, g, WABranchPhase.toRun 0⟩)
      ++ [⟨false, payload, WABranchPhase.toRun 0⟩]
    cancelled := false
    trace := [] }

/-- Invariant for the never-completes direction: not cancelled, every
branch still alive, and no guard script ever fails. -/
def WANoFailGood (s : WAState) : Prop :=
  s.cancelled = false ∧
    (∀ b ∈ s.branches, b.phase ≠ WABranchPhase.done) ∧
    (∀ b ∈ s.branches, b.allowFailure = true → ∀ j, b.script j = true)

/-- Invariant tying completion to a guard failure: if the cancellation
token has fired, some guard branch (allow-failure) actually ran a pass
whose result was `false`, and this failing run is recorded in the trace;
and `join_all` can only have finished if the token fired. -/
def WAInv (s : WAState) : Prop :=
  (s.cancelled = true →
      ∃ (i j : Nat) (b : WABranch), s.branches[i]? = some b ∧
        b.allowFailure = true ∧ b.script j = false ∧
        WAEvent.ran i j false ∈ s.trace) ∧
    (s.allDone = true → s.cancelled = true)

theorem SequenceState.run_add (m n : Nat) (s : SequenceState) :
    s.run (m + n) =
      ((s.run m).1 ++ ((s.run m).2.run n).1, ((s.run m).2.run n).2) := by
  induction m generalizing s with
  | zero => simp [SequenceState.run]
  | succ m ih =>
    have h : m + 1 + n = (m + n) + 1 := by omega
    rw [h]
    simp only [SequenceState.run]
    rw [ih]
    simp

theorem SequenceState.completes_failure (s : SequenceState) (t : Nat)
    (hs : s.status = none ∨ s.status = some Status.running)
    (hc : s.current.completes t Status.failure) :
    (s.run (t + 1)).1 = List.replicate t Status.running ++ [Status.failure] ∧
      (s.run (t + 1)).2.status = some Status.failure ∧
      (s.run (t + 1)).2.behaviors = s.behaviors := by
  induction t generalizing s with
  | zero =>
    obtain ⟨-, h0⟩ := hc
    simp only [Nat.add_zero] at h0
    have htick : s.tick = SequenceState.tickStep s := by
      rcases hs with h | h <;> simp [SequenceState.tick, h]
    simp [SequenceState.run, htick, SequenceState.tickStep, Proc.tick, h0]
  | succ t ih =>
    obtain ⟨hrun, hterm⟩ := hc
    have h0 : s.current.script s.current.ticks = Status.running := by
      have := hrun 0 (by omega)
      simpa using this
    have htick : s.tick = SequenceState.tickStep s := by
      rcases hs with h | h <;> simp [SequenceState.tick, h]
    have hstep : s.tick = (Status.running,
        { behaviors := s.behaviors
          status := some Status.running
          current := ⟨s.current.script, s.current.ticks + 1⟩
          currentStatus := some Status.running
          childStatuses := setLast s.childStatuses (some Status.running) }) := by
      rw [htick]
      simp [SequenceState.tickStep, Proc.tick, h0]
    have hc' : Proc.completes ⟨s.current.script, s.current.ticks + 1⟩ t Status.failure := by
      constructor
      · intro j hj
        have := hrun (j + 1) (by omega)
        simpa [Nat.add_assoc, Nat.add_comm 1 j] using this
      · have : s.current.ticks + (t + 1) = s.current.ticks + 1 + t := by omega
        rw [this] at hterm
        simpa using hterm
    have := ih { behaviors := s.behaviors
                 status := some Status.running
                 current := ⟨s.current.script, s.current.ticks + 1⟩
                 currentStatus := some Status.running
                 childStatuses := setLast s.childStatuses (some Status.running) }
      (Or.inr rfl) hc'
    simp only [SequenceState.run, hstep] at *
    refine ⟨?_, this.2.1, this.2.2⟩
    rw [List.replicate_succ]
    simp [this.1]

theorem SequenceState.completes_success_more (s : SequenceState) (t : Nat)
    (b : Proc) (rest : List Proc)
    (hs : s.status = none ∨ s.status = some Status.running)
    (hc : s.current.completes t Status.success)
    (hb : s.behaviors = b :: rest) :
    (s.run (t + 1)).1 = List.replicate (t + 1) Status.running ∧
      (s.run (t + 1)).2.behaviors = rest ∧
      (s.run (t + 1)).2.current = b ∧
      (s.run (t + 1)).2.status = some Status.running ∧
      (s.run (t + 1)).2.currentStatus = none := by
  induction t generalizing s with
  | zero =>
    obtain ⟨-, h0⟩ := hc
    simp only [Nat.add_zero] at h0
    have htick : s.tick = SequenceState.tickStep s := by
      rcases hs with h | h <;> simp [SequenceState.tick, h]
    simp [SequenceState.run, htick, SequenceState.tickStep, Proc.tick, h0, hb]
  | succ t ih =>
    obtain ⟨hrun, hterm⟩ := hc
    have h0 : s.current.script s.current.ticks = Status.running := by
      have := hrun 0 (by omega)
      simpa using this
    have htick : s.tick = SequenceState.tickStep s := by
      rcases hs with h | h <;> simp [SequenceState.tick, h]
    have hstep : s.tick = (Status.running,
        { behaviors := s.behaviors
          status := some Status.running
          current := ⟨s.current.script, s.current.ticks + 1⟩
          currentStatus := some Status.running
          childStatuses := setLast s.childStatuses (some Status.running) }) := by
      rw [htick]
      simp [SequenceState.tickStep, Proc.tick, h0]
    have hc' : Proc.completes ⟨s.current.script, s.current.ticks + 1⟩ t Status.success := by
      constructor
      · intro j hj
        have := hrun (j + 1) (by omega)
        simpa [Nat.add_assoc, Nat.add_comm 1 j] using this
      · have : s.current.ticks + (t + 1) = s.current.ticks + 1 + t := by omega
        rw [this] at hterm
        simpa using hterm
    have := ih { behaviors := s.behaviors
                 status := some Status.running
                 current := ⟨s.current.script, s.current.ticks + 1⟩
                 currentStatus := some Status.running
                 childStatuses := setLast s.childStatuses (some Status.running) }
      (Or.inr rfl) hc' hb
    simp only [SequenceState.run, hstep] at *
    refine ⟨?_, this.2.1, this.2.2.1, this.2.2.2⟩
    rw [List.replicate_succ]
    simp [this.1]

theorem SequenceState.completes_success_last (s : SequenceState) (t : Nat)
    (hs : s.status = none ∨ s.status = some Status.running)
    (hc : s.current.completes t Status.success)
    (hb : s.behaviors = []) :
    (s.run (t + 1)).1 = List.replicate t Status.running ++ [Status.success] ∧
      (s.run (t + 1)).2.status = some Status.success := by
  induction t generalizing s with
  | zero =>
    obtain ⟨-, h0⟩ := hc
    simp only [Nat.add_zero] at h0
    have htick : s.tick = SequenceState.tickStep s := by
      rcases hs with h | h <;> simp [SequenceState.tick, h]
    simp [SequenceState.run, htick, SequenceState.tickStep, Proc.tick, h0, hb]
  | succ t ih =>
    obtain ⟨hrun, hterm⟩ := hc
    have h0 : s.current.script s.current.ticks = Status.running := by
      have := hrun 0 (by omega)
      simpa using this
    have htick : s.tick = SequenceState.tickStep s := by
      rcases hs with h | h <;> simp [SequenceState.tick, h]
    have hstep : s.tick = (Status.running,
        { behaviors := s.behaviors
          status := some Status.running
          current := ⟨s.current.script, s.current.ticks + 1⟩
          currentStatus := some Status.running
          childStatuses := setLast s.childStatuses (some Status.running) }) := by
      rw [htick]
      simp [SequenceState.tickStep, Proc.tick, h0]
    have hc' : Proc.completes ⟨s.current.script, s.current.ticks + 1⟩ t Status.success := by
      constructor
      · intro j hj
        have := hrun (j + 1) (by omega)
        simpa [Nat.add_assoc, Nat.add_comm 1 j] using this
      · have : s.current.ticks + (t + 1) = s.current.ticks + 1 + t := by omega
        rw [this] at hterm
        simpa using hterm
    have := ih { behaviors := s.behaviors
                 status := some Status.running
                 current := ⟨s.current.script, s.current.ticks + 1⟩
                 currentStatus := some Status.running
                 childStatuses := setLast s.childStatuses (some Status.running) }
      (Or.inr rfl) hc' hb
    simp only [SequenceState.run, hstep] at *
    refine ⟨?_, this.2⟩
    rw [List.replicate_succ]
    simp [this.1]

theorem SequenceState.fail_after_prefix (pre : List (Proc × Nat)) (cf : Proc) (tf : Nat)
    (rest : List Proc) :
    ∀ s : SequenceState,
      (s.status = none ∨ s.status = some Status.running) →
      s.current :: s.behaviors = pre.map Prod.fst ++ cf :: rest →
      (∀ p ∈ pre, Proc.completes p.1 p.2 Status.success) →
      Proc.completes cf tf Status.failure →
      (s.run (seqTotalTicks pre + (tf + 1))).1
          = List.replicate (seqTotalTicks pre + tf) Status.running ++ [Status.failure] ∧
        (s.run (seqTotalTicks pre + (tf + 1))).2.status = some Status.failure ∧
        (s.run (seqTotalTicks pre + (tf + 1))).2.behaviors = rest := by
  induction pre with
  | nil =>
    intro s hs hcur _ hf
    simp only [List.map_nil, List.nil_append, List.cons.injEq] at hcur
    obtain ⟨hc, hb⟩ := hcur
    have := s.completes_failure tf hs (by rw [hc]; exact hf)
    simpa [seqTotalTicks, hb] using this
  | cons p pre ih =>
    intro s hs hcur hpre hf
    simp only [List.map_cons, List.cons_append, List.cons.injEq] at hcur
    obtain ⟨hc, hb⟩ := hcur
    cases hpb : pre.map Prod.fst ++ cf :: rest with
    | nil => simp at hpb
    | cons b rest₂ =>
      rw [hpb] at hb
      have hcomp : s.current.completes p.2 Status.success := by
        rw [hc]; exact hpre p (by simp)
      have h1 := s.completes_success_more p.2 b rest₂ hs hcomp hb
      have htot : seqTotalTicks (p :: pre) + (tf + 1)
          = (p.2 + 1) + (seqTotalTicks pre + (tf + 1)) := by
        simp only [seqTotalTicks, List.map_cons, List.sum_cons]
        omega
      have ih' := ih (s.run (p.2 + 1)).2 (Or.inr h1.2.2.2.1)
        (by rw [h1.2.2.1, h1.2.1]; exact hpb.symm) (fun q hq => hpre q (by simp [hq])) hf
      rw [htot, SequenceState.run_add]
      simp only
      refine ⟨?_, ih'.2.1, ih'.2.2⟩
      rw [h1.1, ih'.1]
      have harith : seqTotalTicks (p :: pre) + tf = (p.2 + 1) + (seqTotalTicks pre + tf) := by
        simp only [seqTotalTicks, List.map_cons, List.sum_cons]
        omega
      rw [harith, List.replicate_add (p.2 + 1) (seqTotalTicks pre + tf),
        List.replicate_add p.2 1]
      simp only [List.append_assoc]

/-- C2: for a Sequence whose children are a prefix of children completing
with `Success` (child `i` after `tᵢ` of its own ticks), then a child
completing with `Failure`, then arbitrary further children `rest`, the
sequence reports `Running` on every tick until the failing child fails,
reports `Failure` on exactly that tick, and the children after the
failing one are left untouched in the queue — their evaluators are never
ticked (the final `behaviors` list is the original `rest`, tick counters
included). -/
theorem claim_C2_sequence_fails_abandons_rest (pre : List (Proc × Nat)) (cf : Proc)
    (tf : Nat) (rest : List Proc) (c : Proc) (cs : List Proc)
    (hchildren : c :: cs = pre.map Prod.fst ++ cf :: rest)
    (hpre : ∀ p ∈ pre, Proc.completes p.1 p.2 Status.success)
    (hf : Proc.completes cf tf Status.failure) :
    ((SequenceState.new c cs).run (seqTotalTicks pre + (tf + 1))).1
        = List.replicate (seqTotalTicks pre + tf) Status.running ++ [Status.failure] ∧
      ((SequenceState.new c cs).run (seqTotalTicks pre + (tf + 1))).2.status
        = some Status.failure ∧
      ((SequenceState.new c cs).run (seqTotalTicks pre + (tf + 1))).2.behaviors = rest :=
  SequenceState.fail_after_prefix pre cf tf rest (SequenceState.new c cs)
    (Or.inl rfl) hchildren hpre hf

theorem claim_C2_sequence_fails_abandons_rest_witness :
    ((SequenceState.new ⟨fun _ => Status.success, 0⟩
          [⟨fun _ => Status.failure, 0⟩, ⟨fun _ => Status.running, 0⟩]).run 2).1
        = [Status.running, Status.failure] ∧
      ((SequenceState.new ⟨fun _ => Status.success, 0⟩
          [⟨fun _ => Status.failure, 0⟩, ⟨fun _ => Status.running, 0⟩]).run 2).2.behaviors
        = [⟨fun _ => Status.running, 0⟩] := by
  have h := claim_C2_sequence_fails_abandons_rest
    [(⟨fun _ => Status.success, 0⟩, 0)] ⟨fun _ => Status.failure, 0⟩ 0
    [⟨fun _ => Status.running, 0⟩] ⟨fun _ => Status.success, 0⟩
    [⟨fun _ => Status.failure, 0⟩, ⟨fun _ => Status.running, 0⟩] rfl
    (by
      intro p hp
      simp only [List.mem_singleton] at hp
      subst hp
      exact ⟨fun j hj => absurd hj (Nat.not_lt_zero j), rfl⟩)
    ⟨fun j hj => absurd hj (Nat.not_lt_zero j), rfl⟩
  exact ⟨h.1, h.2.2⟩

/-- C3: when the active child of a not-yet-terminal Sequence returns
`Success` and more children remain, the tick reports `Running` and
installs the next sibling as the new cursor without ticking it (the
sibling's evaluator state, tick counter included, is exactly the queued
value); only when no children remain does the tick report `Success`, and
conversely a `Success` report implies the child succeeded with an empty
queue. -/
theorem claim_C3_sequence_one_child_per_tick (s : SequenceState)
    (hs : s.status = none ∨ s.status = some Status.running) :
    (∀ b rest, s.current.now = Status.success → s.behaviors = b :: rest →
        s.tick = (Status.running,
          { behaviors := rest
            status := some Status.running
            current := b
            currentStatus := none
            childStatuses := setLast s.childStatuses (some Status.success) ++ [none] })) ∧
      (s.current.now = Status.success → s.behaviors = [] →
        s.tick = (Status.success,
          { behaviors := []
            status := some Status.success
            current := ⟨s.current.script, s.current.ticks + 1⟩
            currentStatus := some Status.success
            childStatuses := setLast s.childStatuses (some Status.success) })) ∧
      ((s.tick).1 = Status.success → s.current.now = Status.success ∧ s.behaviors = []) := by
  have htick : s.tick = SequenceState.tickStep s := by
    rcases hs with h | h <;> simp [SequenceState.tick, h]
  refine ⟨?_, ?_, ?_⟩
  · intro b rest hnow hb
    rw [htick]
    simp [SequenceState.tickStep, Proc.tick, Proc.now] at *
    simp [hnow, hb]
  · intro hnow hb
    rw [htick]
    simp [SequenceState.tickStep, Proc.tick, Proc.now] at *
    simp [hnow, hb]
  · intro hres
    rw [htick] at hres
    simp only [SequenceState.tickStep, Proc.tick, Proc.now] at *
    rcases hnow : s.current.script s.current.ticks with _ | _ | _ <;>
      rw [hnow] at hres <;>
      rcases hb : s.behaviors with _ | ⟨b, rest⟩ <;>
      rw [hb] at hres <;> simp_all

theorem claim_C3_sequence_one_child_per_tick_witness :
    (SequenceState.new ⟨fun _ => Status.success, 0⟩ [⟨fun _ => Status.running, 5⟩]).tick
        = (Status.running,
          { behaviors := []
            status := some Status.running
            current := ⟨fun _ => Status.running, 5⟩
            currentStatus := none
            childStatuses := [some Status.success, none] }) := by
  have h := claim_C3_sequence_one_child_per_tick
    (SequenceState.new ⟨fun _ => Status.success, 0⟩ [⟨fun _ => Status.running, 5⟩])
    (Or.inl rfl)
  exact h.1 ⟨fun _ => Status.running, 5⟩ [] rfl rfl

theorem procEv_run_completes (p : Proc) (t : Nat) (st : Status)
    (hc : p.completes t st) :
    (procEv.run p (t + 1)).1 = List.replicate t Status.running ++ [st] := by
  induction t generalizing p with
  | zero =>
    obtain ⟨-, h0⟩ := hc
    simp only [Nat.add_zero] at h0
    simp [Ev.run, procEv, Proc.tick, h0]
  | succ t ih =>
    obtain ⟨hrun, hterm⟩ := hc
    have h0 : p.script p.ticks = Status.running := by
      have := hrun 0 (by omega)
      simpa using this
    have hc' : Proc.completes ⟨p.script, p.ticks + 1⟩ t st := by
      constructor
      · intro j hj
        have := hrun (j + 1) (by omega)
        simpa [Nat.add_assoc, Nat.add_comm 1 j] using this
      · have : p.ticks + (t + 1) = p.ticks + 1 + t := by omega
        rw [this] at hterm
        simpa using hterm
    have := ih ⟨p.script, p.ticks + 1⟩ hc'
    simp only [Ev.run, procEv, Proc.tick] at *
    rw [List.replicate_succ]
    simp [h0, this]

theorem double_invert_run_aux (t : Nat) (st : Status) (hst : st ≠ Status.running) :
    ∀ (o : InvertState (InvertState Proc)) (p : Proc),
      (o.status = none ∨ o.status = some Status.running) →
      (o.current.status = none ∨ o.current.status = some Status.running) →
      o.current.current = p →
      p.completes t st →
      ((invertEv (invertEv procEv)).run o (t + 1)).1
        = List.replicate t Status.running ++ [st] := by
  induction t with
  | zero =>
    intro o p ho hi hp hc
    obtain ⟨-, h0⟩ := hc
    simp only [Nat.add_zero] at h0
    have houter : (invertEv (invertEv procEv)).tick o
        = InvertState.tickStep (invertEv procEv) o := by
      rcases ho with h | h <;> simp [invertEv, InvertState.tick, h]
    have hinner : (invertEv procEv).tick o.current
        = InvertState.tickStep procEv o.current := by
      rcases hi with h | h <;> simp [invertEv, InvertState.tick, h]
    simp only [Ev.run, houter, InvertState.tickStep, hinner]
    simp [procEv, Proc.tick, hp, h0]
    rcases st with _ | _ | _ <;> simp [invertStatus] at hst ⊢
  | succ t ih =>
    intro o p ho hi hp hc
    obtain ⟨hrun, hterm⟩ := hc
    have h0 : p.script p.ticks = Status.running := by
      have := hrun 0 (by omega)
      simpa using this
    have houter : (invertEv (invertEv procEv)).tick o
        = InvertState.tickStep (invertEv procEv) o := by
      rcases ho with h | h <;> simp [invertEv, InvertState.tick, h]
    have hinner : (invertEv procEv).tick o.current
        = InvertState.tickStep procEv o.current := by
      rcases hi with h | h <;> simp [invertEv, InvertState.tick, h]
    have hc' : Proc.completes ⟨p.script, p.ticks + 1⟩ t st := by
      constructor
      · intro j hj
        have := hrun (j + 1) (by omega)
        simpa [Nat.add_assoc, Nat.add_comm 1 j] using this
      · have : p.ticks + (t + 1) = p.ticks + 1 + t := by omega
        rw [this] at hterm
        simpa using hterm
    have hstep : (invertEv (invertEv procEv)).tick o = (Status.running,
        { status := some Status.running
          current := { status := some Status.running
                       current := ⟨p.script, p.ticks + 1⟩
                       currentStatus := some Status.running }
          currentStatus := some Status.running }) := by
      rw [houter]
      simp only [InvertState.tickStep, hinner]
      simp [procEv, Proc.tick, hp, h0, invertStatus]
    have := ih { status := some Status.running
                 current := { status := some Status.running
                              current := ⟨p.script, p.ticks + 1⟩
                              currentStatus := some Status.running }
                 currentStatus := some Status.running }
      ⟨p.script, p.ticks + 1⟩ (Or.inr rfl) (Or.inr rfl) rfl hc'
    simp only [Ev.run, hstep] at *
    rw [List.replicate_succ]
    simp [this]

/-- C7: `InvertState::tick` maps its child's `Success` to `Failure`,
`Failure` to `Success` and passes `Running` through unchanged; the status
map is an involution; and a double Invert around a child behaving like
process `X` reproduces `X`'s tick-by-tick outputs up to and including its
first terminal status. -/
theorem claim_C7_invert_maps_and_double_invert_id :
    (∀ st, invertStatus (invertStatus st) = st) ∧
      (∀ {σ : Type} (ev : Ev σ) (s : InvertState σ),
        (s.status = none ∨ s.status = some Status.running) →
        (InvertState.tick ev s).1 = invertStatus (ev.tick s.current).1) ∧
      (∀ (p : Proc) (t : Nat) (st : Status), st ≠ Status.running →
        p.completes t st →
        ((invertEv (invertEv procEv)).run
            (InvertState.new (InvertState.new p)) (t + 1)).1
          = (procEv.run p (t + 1)).1 ∧
        (procEv.run p (t + 1)).1 = List.replicate t Status.running ++ [st]) := by
  refine ⟨?_, ?_, ?_⟩
  · intro st
    rcases st with _ | _ | _ <;> simp [invertStatus]
  · intro σ ev s hs
    have htick : InvertState.tick ev s = InvertState.tickStep ev s := by
      rcases hs with h | h <;> simp [InvertState.tick, h]
    rw [htick]
    simp [InvertState.tickStep]
  · intro p t st hst hc
    have hx := procEv_run_completes p t st hc
    have hd := double_invert_run_aux t st hst (InvertState.new (InvertState.new p)) p
      (Or.inl rfl) (Or.inl rfl) rfl hc
    exact ⟨by rw [hd, hx], hx⟩

theorem claim_C7_invert_maps_and_double_invert_id_witness :
    ((invertEv (invertEv procEv)).run
        (InvertState.new (InvertState.new ⟨fun n => if n < 2 then Status.running else Status.failure, 0⟩)) 3).1
      = [Status.running, Status.running, Status.failure] := by
  have h := claim_C7_invert_maps_and_double_invert_id.2.2
    ⟨fun n => if n < 2 then Status.running else Status.failure, 0⟩ 2 Status.failure
    (by simp)
    (by
      constructor
      · intro j hj
        simp [hj]
      · simp)
  have := h.1.trans h.2
  simpa using this

/-- C1 counterexample: the synchronous `InvertState` does NOT surface a
hard failure when ticked again after going terminal — after its child
fails (so the node is terminal with `Success`), a second tick silently
returns the cached `Success` with the state unchanged (in particular the
child evaluator is not re-ticked), contradicting the claim that every
node evaluator detects this as a panic-class contract violation and
never silently returns a cached result. -/
theorem claim_C1_counterexample_sync_invert_returns_cached :
    InvertState.tick procEv
        ((InvertState.tick procEv (InvertState.new ⟨fun _ => Status.failure, 0⟩)).2)
      = (Status.success,
        (InvertState.tick procEv (InvertState.new ⟨fun _ => Status.failure, 0⟩)).2) := by
  rfl

/-- C1 amended: tick-after-terminal without reset is surfaced as an
`unreachable!()` panic by the async composite nodes (Sequence, Invert)
and by the sync Wait leaf; the sync `InvertState`/`SequenceState`
instead return the cached terminal status with their state unchanged
(never re-executing their children), as their `Action::tick` contract
documents. -/
theorem claim_C1_terminal_retick_behaviour :
    (∀ s : AsyncSequenceState, s.completed = true →
        s.run = Except.error Panic.unreachableReached) ∧
      (∀ s : AsyncInvertState, s.completed = true →
        s.run = Except.error Panic.unreachableReached) ∧
      (∀ (dt : Rat) (w : WaitState), w.target ≤ w.elapsed →
        w.tick dt = Except.error Panic.unreachableReached) ∧
      (∀ {σ : Type} (ev : Ev σ) (s : InvertState σ) (st : Status),
        s.status = some st → st ≠ Status.running → InvertState.tick ev s = (st, s)) ∧
      (∀ (s : SequenceState) (st : Status),
        s.status = some st → st ≠ Status.running → s.tick = (st, s)) := by
  refine ⟨?_, ?_, ?_, ?_, ?_⟩
  · intro s h
    simp [AsyncSequenceState.run, h]
  · intro s h
    simp [AsyncInvertState.run, h]
  · intro dt w h
    simp [WaitState.tick, h]
  · intro σ ev s st hst hterm
    simp [InvertState.tick, hst, hterm]
  · intro s st hst hterm
    simp [SequenceState.tick, hst, hterm]

theorem claim_C1_terminal_retick_behaviour_witness :
    AsyncSequenceState.run ⟨[true], true⟩ = Except.error Panic.unreachableReached ∧
      AsyncInvertState.run ⟨true, true⟩ = Except.error Panic.unreachableReached ∧
      WaitState.tick 1 ⟨2, 3⟩ = Except.error Panic.unreachableReached ∧
      InvertState.tick procEv ⟨some Status.failure, ⟨fun _ => Status.success, 4⟩, some Status.success⟩
        = (Status.failure, ⟨some Status.failure, ⟨fun _ => Status.success, 4⟩, some Status.success⟩) ∧
      SequenceState.tick ⟨[], some Status.success, ⟨fun _ => Status.success, 1⟩, some Status.success, [some Status.success]⟩
        = (Status.success, ⟨[], some Status.success, ⟨fun _ => Status.success, 1⟩, some Status.success, [some Status.success]⟩) :=
  ⟨claim_C1_terminal_retick_behaviour.1 ⟨[true], true⟩ rfl,
    claim_C1_terminal_retick_behaviour.2.1 ⟨true, true⟩ rfl,
    claim_C1_terminal_retick_behaviour.2.2.1 1 ⟨2, 3⟩ (by norm_num),
    claim_C1_terminal_retick_behaviour.2.2.2.1 procEv _ Status.failure rfl (by simp),
    claim_C1_terminal_retick_behaviour.2.2.2.2 _ Status.success rfl (by simp)⟩

/-- C8 (code bug): for `WaitState::new(0.0)` the very first tick does not
return `Success` — the entry guard `elapsed >= target` is already true
(`0 >= 0`), so the tick hits `unreachable!()` and panics, for every
supplied `dt` (the guard fires before `dt` is even read).  The same
happens after a `reset`.  The spec requires `target == 0` to succeed on
the first advance (and the async `AsyncWaitState` does succeed there). -/
theorem claim_C8_wait_zero_first_tick_panics (dt : Rat) :
    WaitState.tick dt (WaitState.new 0) = Except.error Panic.unreachableReached ∧
      WaitState.tick dt (WaitState.reset (WaitState.new 0)) =
        Except.error Panic.unreachableReached := by
  constructor <;> simp [WaitState.tick, WaitState.new, WaitState.reset]

/-- C6: `LoopState::tick` reports `Running` from every internal state
(it never reports `Success` or `Failure` to its parent), and when the
wrapped child's last status is terminal the child is reset and restarted
from scratch: the child evaluator advanced during that tick is the reset
one (one tick past a fresh restart, so the recorded status is the
child's script at index `0`). -/
theorem claim_C6_loop_always_running :
    (∀ l : LoopState, (l.tick).1 = Status.running) ∧
      (∀ (l : LoopState) (st : Status), l.child.status = some st →
        st ≠ Status.running →
        (l.tick).2.child = ((l.child.reset).tick).2 ∧
        (l.tick).2.child.proc.ticks = 1 ∧
        (l.tick).2.child.status = some (l.child.proc.script 0)) := by
  constructor
  · intro l
    simp [LoopState.tick]
  · intro l st hst hterm
    simp [LoopState.tick, hst, hterm, ChildW.tick, ChildW.reset, Proc.tick, Proc.reset]

theorem claim_C6_loop_always_running_witness :
    (LoopState.tick ⟨⟨⟨fun _ => Status.running, 7⟩, some Status.success⟩⟩).1
        = Status.running ∧
      (LoopState.tick ⟨⟨⟨fun _ => Status.running, 7⟩, some Status.success⟩⟩).2.child.proc.ticks
        = 1 := by
  have h1 := claim_C6_loop_always_running.1 ⟨⟨⟨fun _ => Status.running, 7⟩, some Status.success⟩⟩
  have h2 := claim_C6_loop_always_running.2 ⟨⟨⟨fun _ => Status.running, 7⟩, some Status.success⟩⟩
    Status.success rfl (by simp)
  exact ⟨h1, h2.2.1⟩

theorem ChildW.exec_status_ne_none (ops : List ChildOp) (c : ChildW)
    (h : c.status ≠ none) : (ChildW.exec ops c).status ≠ none := by
  induction ops generalizing c with
  | nil => simpa [ChildW.exec] using h
  | cons op rest ih =>
    cases op with
    | tick =>
      simp only [ChildW.exec]
      exact ih _ (by simp [ChildW.tick])
    | reset =>
      simp only [ChildW.exec]
      exact ih _ (by simpa [ChildW.reset] using h)

/-- C9 counterexample: after one tick of an immediately succeeding
child, `Child::reset` leaves the status cell at `Some(Success)` — the
observable status is not `None` after a reset, contradicting the claimed
invariant that the cell is `None` exactly when the node has never been
ticked or has just been reset. -/
theorem claim_C9_counterexample_reset_keeps_status :
    (ChildW.reset ((ChildW.fresh ⟨fun _ => Status.success, 0⟩).tick).2).status
      = some Status.success := by
  rfl

/-- C9 amended: for the sync `Child`, the status cell is `None` exactly
as long as the child has never been ticked — any tick writes
`Some(returned status)` and `Child::reset` leaves the cell untouched
(it does not return to `None`); for `AsyncChild::run`, the cell is set
to `Some(Running)` as the first write when evaluation starts and
receives the single terminal write `Some(Success/Failure)` when it
completes. -/
theorem claim_C9_status_cell_invariant :
    (∀ (ops : List ChildOp) (p : Proc),
        (ChildW.exec ops (ChildW.fresh p)).status = none ↔ ChildOp.tick ∉ ops) ∧
      (∀ c : ChildW, (c.tick).2.status = some (c.tick).1) ∧
      (∀ c : ChildW, (c.reset).status = c.status) ∧
      (∀ c : AsyncChildW,
        (c.run).1 = [some Status.running, some (statusOfBool c.result)] ∧
        (c.run).2.1.status = some (statusOfBool c.result)) := by
  refine ⟨?_, ?_, ?_, ?_⟩
  · intro ops p
    induction ops generalizing p with
    | nil => simp [ChildW.exec, ChildW.fresh]
    | cons op rest ih =>
      cases op with
      | tick =>
        simp only [ChildW.exec]
        constructor
        · intro h
          exact absurd h (ChildW.exec_status_ne_none rest _ (by simp [ChildW.fresh, ChildW.tick]))
        · intro h
          exact absurd (by simp : ChildOp.tick ∈ ChildOp.tick :: rest) h
      | reset =>
        simp only [ChildW.exec]
        have : (ChildW.fresh p).reset = ChildW.fresh ⟨p.script, 0⟩ := by
          simp [ChildW.fresh, ChildW.reset, Proc.reset]
        rw [this, ih]
        simp
  · intro c
    simp [ChildW.tick]
  · intro c
    simp [ChildW.reset]
  · intro c
    simp [AsyncChildW.run]

/-- C4: when the root's last recorded status is terminal, a driver tick
under `RetainOnCompletion` returns that status with the whole tree state
unchanged (the root is neither advanced nor mutated), while under
`ReloadOnCompletion` it resets the root first and then advances it: the
returned status is the first tick of the freshly reset evaluator (its
script at index `0`) and it is recorded in the root's status cell. -/
theorem claim_C4_driver_completion_policies (bt : BehaviorTree) (st : Status)
    (hst : bt.child.status = some st) (hterm : st ≠ Status.running) :
    (bt.policy = BehaviorTreePolicy.retainOnCompletion → bt.tick = (st, bt)) ∧
      (bt.policy = BehaviorTreePolicy.reloadOnCompletion →
        (bt.tick).1 = bt.child.proc.script 0 ∧
        (bt.tick).2.child = ((bt.child.reset).tick).2 ∧
        (bt.tick).2.child.status = some (bt.tick).1) := by
  constructor
  · intro hp
    simp [BehaviorTree.tick, hst, hterm, hp]
  · intro hp
    simp [BehaviorTree.tick, BehaviorTree.reset, hst, hterm, hp,
      ChildB.tick, ChildB.reset, Proc.tick, Proc.reset]

theorem claim_C4_driver_completion_policies_witness :
    BehaviorTree.tick ⟨BehaviorTreePolicy.retainOnCompletion,
        ⟨⟨fun _ => Status.running, 3⟩, some Status.failure⟩⟩
      = (Status.failure,
        ⟨BehaviorTreePolicy.retainOnCompletion,
          ⟨⟨fun _ => Status.running, 3⟩, some Status.failure⟩⟩) ∧
    (BehaviorTree.tick ⟨BehaviorTreePolicy.reloadOnCompletion,
        ⟨⟨fun _ => Status.running, 3⟩, some Status.failure⟩⟩).1
      = Status.running := by
  have h1 := (claim_C4_driver_completion_policies
    ⟨BehaviorTreePolicy.retainOnCompletion,
      ⟨⟨fun _ => Status.running, 3⟩, some Status.failure⟩⟩
    Status.failure rfl (by simp)).1 rfl
  have h2 := (claim_C4_driver_completion_policies
    ⟨BehaviorTreePolicy.reloadOnCompletion,
      ⟨⟨fun _ => Status.running, 3⟩, some Status.failure⟩⟩
    Status.failure rfl (by simp)).2 rfl
  exact ⟨h1, h2.1⟩





mutual

theorem compileSync_error_eq (b : Behavior) (e : Panic)
    (h : compileSync b = Except.error e) : e = Panic.todoReached := by
  cases b with
  | action a => simp [compileSync] at h
  | wait t => simp [compileSync] at h
  | invert b' =>
    simp only [compileSync] at h
    cases h' : compileSync b' with
    | error e' =>
      rw [h'] at h
      simp only [Except.error.injEq] at h
      subst h
      exact compileSync_error_eq b' e' h'
    | ok c' =>
      rw [h'] at h
      simp at h
  | sequence bs =>
    simp only [compileSync] at h
    cases h' : compileSyncList bs with
    | error e' =>
      rw [h'] at h
      simp only [Except.error.injEq] at h
      subst h
      exact compileSyncList_error_eq bs e' h'
    | ok c' =>
      rw [h'] at h
      simp at h
  | select bs =>
    simp only [compileSync] at h
    cases h' : compileSyncList bs with
    | error e' =>
      rw [h'] at h
      simp only [Except.error.injEq] at h
      subst h
      exact compileSyncList_error_eq bs e' h'
    | ok c' =>
      rw [h'] at h
      simp at h
  | loop b' =>
    simp only [compileSync] at h
    cases h' : compileSync b' with
    | error e' =>
      rw [h'] at h
      simp only [Except.error.injEq] at h
      subst h
      exact compileSync_error_eq b' e' h'
    | ok c' =>
      rw [h'] at h
      simp at h
  | whileAll conds child =>
    simp only [compileSync, Except.error.injEq] at h
    exact h.symm

theorem compileSyncList_error_eq (l : List Behavior) (e : Panic)
    (h : compileSyncList l = Except.error e) : e = Panic.todoReached := by
  cases l with
  | nil => simp [compileSyncList] at h
  | cons b rest =>
    simp only [compileSyncList] at h
    cases hb : compileSync b with
    | error e' =>
      rw [hb] at h
      simp only [Except.error.injEq] at h
      subst h
      exact compileSync_error_eq b e' hb
    | ok c =>
      rw [hb] at h
      cases hr : compileSyncList rest with
      | error e' =>
        rw [hr] at h
        simp only [Except.error.injEq] at h
        subst h
        exact compileSyncList_error_eq rest e' hr
      | ok cs =>
        rw [hr] at h
        simp at h

end



mutual

theorem compileSync_whileAll_panics (b : Behavior) (h : containsWhileAll b = true) :
    compileSync b = Except.error Panic.todoReached := by
  cases b with
  | action a => simp [containsWhileAll] at h
  | wait t => simp [containsWhileAll] at h
  | invert b =>
    have := compileSync_whileAll_panics b (by simpa [containsWhileAll] using h)
    simp [compileSync, this]
  | sequence bs =>
    have := compileSyncList_whileAll_panics bs (by simpa [containsWhileAll] using h)
    simp [compileSync, this]
  | select bs =>
    have := compileSyncList_whileAll_panics bs (by simpa [containsWhileAll] using h)
    simp [compileSync, this]
  | loop b =>
    have := compileSync_whileAll_panics b (by simpa [containsWhileAll] using h)
    simp [compileSync, this]
  | whileAll conds child => simp [compileSync]

theorem compileSyncList_whileAll_panics (l : List Behavior)
    (h : containsWhileAllList l = true) :
    compileSyncList l = Except.error Panic.todoReached := by
  cases l with
  | nil => simp [containsWhileAllList] at h
  | cons b rest =>
    simp only [containsWhileAllList, Bool.or_eq_true] at h
    cases h with
    | inl hb =>
      have := compileSync_whileAll_panics b hb
      simp [compileSyncList, this]
    | inr hr =>
      have := compileSyncList_whileAll_panics rest hr
      cases hc : compileSync b with
      | error e =>
        have he : e = Panic.todoReached := compileSync_error_eq b e hc
        dsimp [compileSyncList]
        rw [hc, he]
      | ok c =>
        dsimp [compileSyncList]
        rw [hc, this]

end



/-- C10: compiling any schema that contains a `WhileAll` node anywhere
into the synchronous runtime tree panics: the `WhileAll` arm of the sync
compiler is `todo!()`, and every other arm only recurses into children,
so the panic is unavoidable and the sync variant can never construct a
`WhileAll` node. -/
theorem claim_C10_sync_whileall_compile_panics (b : Behavior)
    (h : containsWhileAll b = true) :
    compileSync b = Except.error Panic.todoReached :=
  compileSync_whileAll_panics b h

theorem claim_C10_sync_whileall_compile_panics_witness :
    containsWhileAll
        (Behavior.sequence [Behavior.action 0,
          Behavior.invert (Behavior.whileAll [Behavior.action 1] (Behavior.action 2))]) = true ∧
      compileSync
        (Behavior.sequence [Behavior.action 0,
          Behavior.invert (Behavior.whileAll [Behavior.action 1] (Behavior.action 2))])
        = Except.error Panic.todoReached :=
  ⟨rfl, claim_C10_sync_whileall_compile_panics _ rfl⟩

theorem waRun_some_false (n : Nat) (sched : Nat → Nat) (t : Nat) (s : WAState)
    (res : Bool) (h : (waRun sched t s n).1 = some res) : res = false := by
  induction n generalizing t s with
  | zero =>
    simp only [waRun] at h
    by_cases hd : s.allDone <;> simp [hd] at h
    exact h
  | succ n ih =>
    simp only [waRun] at h
    by_cases hd : s.allDone
    · simp [hd] at h
      exact h
    · simp only [hd, Bool.false_eq_true, if_false] at h
      exact ih _ _ h

theorem waRun_some_allDone (n : Nat) (sched : Nat → Nat) (t : Nat) (s : WAState)
    (res : Bool) (h : (waRun sched t s n).1 = some res) :
    ((waRun sched t s n).2).allDone = true := by
  induction n generalizing t s with
  | zero =>
    simp only [waRun] at h ⊢
    by_cases hd : s.allDone <;> simp [hd] at h ⊢
  | succ n ih =>
    simp only [waRun] at h ⊢
    by_cases hd : s.allDone
    · simp [hd]
    · simp only [hd, Bool.false_eq_true, if_false] at h ⊢
      exact ih _ _ h

theorem waStep_cancelled_frozen (i : Nat) (s : WAState) (h : s.cancelled = true) :
    (waStep i s).trace = s.trace ∧ (waStep i s).cancelled = true := by
  unfold waStep
  cases hb : s.branches[i]? with
  | none => exact ⟨rfl, h⟩
  | some b =>
    cases hph : b.phase <;> simp [pollBranch, hph, h]

theorem waRun_cancelled_frozen (n : Nat) (sched : Nat → Nat) (t : Nat) (s : WAState)
    (h : s.cancelled = true) :
    ((waRun sched t s n).2).trace = s.trace ∧ ((waRun sched t s n).2).cancelled = true := by
  induction n generalizing t s with
  | zero => simp [waRun, h]
  | succ n ih =>
    simp only [waRun]
    by_cases hd : s.allDone
    · simp [hd, h]
    · simp only [hd, Bool.false_eq_true, if_false]
      have hstep := waStep_cancelled_frozen (sched t % s.branches.length) s h
      have := ih (t + 1) (waStep (sched t % s.branches.length) s) hstep.2
      exact ⟨this.1.trans hstep.1, this.2⟩

theorem WAState.allDone_iff (s : WAState) :
    s.allDone = true ↔
      ∀ (k : Nat) (b : WABranch), s.branches[k]? = some b →
        b.phase = WABranchPhase.done := by
  simp only [WAState.allDone, List.all_eq_true]
  constructor
  · intro h k b hk
    have hmem : b ∈ s.branches := List.mem_iff_getElem?.2 ⟨k, hk⟩
    have := h b hmem
    cases hph : b.phase <;> rw [hph] at this <;>
      simp [WABranchPhase.isDone] at this ⊢
  · intro h b hmem
    obtain ⟨k, hk⟩ := List.mem_iff_getElem?.1 hmem
    rw [h k b hk]
    rfl

theorem waStep_noFailGood (i : Nat) (s : WAState) (h : WANoFailGood s) :
    WANoFailGood (waStep i s) ∧ (waStep i s).branches.length = s.branches.length := by
  obtain ⟨hc, halive, hscripts⟩ := h
  unfold waStep
  cases hb : s.branches[i]? with
  | none => exact ⟨⟨hc, halive, hscripts⟩, rfl⟩
  | some b =>
    have hmem : b ∈ s.branches := List.mem_iff_getElem?.2 ⟨i, hb⟩
    have hbnotdone := halive b hmem
    have key : ∃ b' evs, pollBranch i s.cancelled b = (b', s.cancelled, evs) ∧
        b'.phase ≠ WABranchPhase.done ∧ b'.allowFailure = b.allowFailure ∧
        b'.script = b.script := by
      cases hph : b.phase with
      | done => exact absurd hph hbnotdone
      | toRun j =>
        by_cases hall : b.allowFailure = true
        · have hsj : b.script j = true := hscripts b hmem hall j
          have hpoll : pollBranch i s.cancelled b
              = ({ b with phase := WABranchPhase.toYield j }, s.cancelled,
                [WAEvent.ran i j true]) := by
            simp [pollBranch, hph, hc, hall, hsj]
          exact ⟨_, _, hpoll, by simp, rfl, rfl⟩
        · simp only [Bool.not_eq_true] at hall
          have hpoll : pollBranch i s.cancelled b
              = ({ b with phase := WABranchPhase.toYield j }, s.cancelled,
                [WAEvent.ran i j (b.script j)]) := by
            simp [pollBranch, hph, hc, hall]
          exact ⟨_, _, hpoll, by simp, rfl, rfl⟩
      | toYield j =>
        have hpoll : pollBranch i s.cancelled b
            = ({ b with phase := WABranchPhase.toReset j }, s.cancelled, []) := by
          simp [pollBranch, hph, hc]
        exact ⟨_, _, hpoll, by simp, rfl, rfl⟩
      | toReset j =>
        have hpoll : pollBranch i s.cancelled b
            = ({ b with phase := WABranchPhase.toRun (j + 1) }, s.cancelled,
              [WAEvent.didReset i j]) := by
          simp [pollBranch, hph, hc]
        exact ⟨_, _, hpoll, by simp, rfl, rfl⟩
    obtain ⟨b', evs, hpoll, hb'notdone, hb'allow, hb'script⟩ := key
    dsimp only
    rw [hpoll]
    refine ⟨⟨hc, ?_, ?_⟩, by simp⟩
    · intro x hx
      rcases List.mem_or_eq_of_mem_set hx with hx | hx
      · exact halive x hx
      · rw [hx]; exact hb'notdone
    · intro x hx
      rcases List.mem_or_eq_of_mem_set hx with hx | hx
      · exact hscripts x hx
      · rw [hx, hb'allow, hb'script]
        exact hscripts b hmem

theorem waStep_length (i : Nat) (s : WAState) :
    (waStep i s).branches.length = s.branches.length := by
  unfold waStep
  cases hb : s.branches[i]? with
  | none => rfl
  | some b => simp

theorem WAState.not_allDone_of_alive (s : WAState) (hne : s.branches ≠ [])
    (halive : ∀ b ∈ s.branches, b.phase ≠ WABranchPhase.done) :
    s.allDone = false := by
  cases hl : s.branches with
  | nil => exact absurd hl hne
  | cons b rest =>
    have hmem : b ∈ s.branches := by rw [hl]; simp
    have := halive b hmem
    simp only [WAState.allDone, hl, List.all_cons, Bool.and_eq_false_iff]
    left
    cases hph : b.phase <;> simp [WABranchPhase.isDone] at this ⊢
    exact absurd hph this

theorem waRun_none_of_noFail (n : Nat) (sched : Nat → Nat) (t : Nat) (s : WAState)
    (hgood : WANoFailGood s) (hne : s.branches ≠ []) :
    (waRun sched t s n).1 = none := by
  induction n generalizing t s with
  | zero =>
    have := WAState.not_allDone_of_alive s hne hgood.2.1
    simp [waRun, this]
  | succ n ih =>
    have hnd := WAState.not_allDone_of_alive s hne hgood.2.1
    simp only [waRun, hnd, Bool.false_eq_true, if_false]
    have hg := waStep_noFailGood (sched t % s.branches.length) s hgood
    apply ih _ _ hg.1
    intro hnil
    rw [hnil] at hg
    simp at hg
    exact hne (List.eq_nil_of_length_eq_zero hg.2.symm)

theorem waStep_inv (i : Nat) (s : WAState) (h : WAInv s) : WAInv (waStep i s) := by
  obtain ⟨h1, h2⟩ := h
  unfold waStep
  cases hb : s.branches[i]? with
  | none => exact ⟨h1, h2⟩
  | some b =>
    dsimp only
    obtain ⟨hlen, -⟩ := List.getElem?_eq_some.1 hb
    by_cases hc : s.cancelled = true
    · have key : ∃ b', pollBranch i s.cancelled b = (b', true, []) ∧
          b'.allowFailure = b.allowFailure ∧ b'.script = b.script := by
        cases hph : b.phase with
        | done => exact ⟨b, by simp [pollBranch, hph, hc], rfl, rfl⟩
        | toRun j =>
          exact ⟨{ b with phase := WABranchPhase.done },
            by simp [pollBranch, hph, hc], rfl, rfl⟩
        | toYield j =>
          exact ⟨{ b with phase := WABranchPhase.done },
            by simp [pollBranch, hph, hc], rfl, rfl⟩
        | toReset j =>
          exact ⟨{ b with phase := WABranchPhase.done },
            by simp [pollBranch, hph, hc], rfl, rfl⟩
      obtain ⟨b', hpoll, hallow, hscript⟩ := key
      rw [hpoll]
      constructor
      · intro _
        obtain ⟨i₀, j₀, b₀, hk, ha, hs, hev⟩ := h1 hc
        by_cases hii : i = i₀
        · subst hii
          rw [hb] at hk
          have hbb : b = b₀ := by injection hk
          refine ⟨i, j₀, b', ?_, ?_, ?_, ?_⟩
          · simp [List.getElem?_set, hlen]
          · rw [hallow, hbb]; exact ha
          · rw [hscript, hbb]; exact hs
          · simpa using hev
        · exact ⟨i₀, j₀, b₀, by simp [List.getElem?_set, hii, hk], ha, hs, by simpa using hev⟩
      · intro _
        rfl
    · simp only [Bool.not_eq_true] at hc
      cases hph : b.phase with
      | done =>
        have hpoll : pollBranch i s.cancelled b = (b, s.cancelled, []) := by
          simp [pollBranch, hph]
        rw [hpoll]
        constructor
        · intro hcc
          rw [hc] at hcc
          simp at hcc
        · intro hdone
          have hall : s.allDone = true := by
            rw [WAState.allDone_iff] at hdone ⊢
            intro k bk hk
            by_cases hik : i = k
            · subst hik
              rw [hb] at hk
              have : b = bk := by injection hk
              rw [← this]
              exact hph
            · exact hdone k bk (by simp [List.getElem?_set, hik, hk])
          have := h2 hall
          rw [hc] at this
          simp at this
      | toRun j =>
        by_cases hfail : b.allowFailure = true ∧ b.script j = false
        · have hpoll : pollBranch i s.cancelled b
              = ({ b with phase := WABranchPhase.done }, true, [WAEvent.ran i j false]) := by
            simp [pollBranch, hph, hc, hfail.1, hfail.2]
          rw [hpoll]
          constructor
          · intro _
            exact ⟨i, j, { b with phase := WABranchPhase.done },
              by simp [List.getElem?_set, hlen], by simp [hfail.1], by simp [hfail.2],
              by simp⟩
          · intro _
            rfl
        · have hpoll : pollBranch i s.cancelled b
              = ({ b with phase := WABranchPhase.toYield j }, s.cancelled,
                [WAEvent.ran i j (b.script j)]) := by
            cases hall : b.allowFailure <;> cases hsj : b.script j <;>
              simp only [pollBranch, hph, hc, hall, hsj] <;> simp_all
          rw [hpoll]
          constructor
          · intro hcc
            rw [hc] at hcc
            simp at hcc
          · intro hdone
            rw [WAState.allDone_iff] at hdone
            have := hdone i { b with phase := WABranchPhase.toYield j }
              (by simp [List.getElem?_set, hlen])
            simp at this
      | toYield j =>
        have hpoll : pollBranch i s.cancelled b
            = ({ b with phase := WABranchPhase.toReset j }, s.cancelled, []) := by
          simp [pollBranch, hph, hc]
        rw [hpoll]
        constructor
        · intro hcc
          rw [hc] at hcc
          simp at hcc
        · intro hdone
          rw [WAState.allDone_iff] at hdone
          have := hdone i { b with phase := WABranchPhase.toReset j }
            (by simp [List.getElem?_set, hlen])
          simp at this
      | toReset j =>
        have hpoll : pollBranch i s.cancelled b
            = ({ b with phase := WABranchPhase.toRun (j + 1) }, s.cancelled,
              [WAEvent.didReset i j]) := by
          simp [pollBranch, hph, hc]
        rw [hpoll]
        constructor
        · intro hcc
          rw [hc] at hcc
          simp at hcc
        · intro hdone
          rw [WAState.allDone_iff] at hdone
          have := hdone i { b with phase := WABranchPhase.toRun (j + 1) }
            (by simp [List.getElem?_set, hlen])
          simp at this

theorem waRun_inv (n : Nat) (sched : Nat → Nat) (t : Nat) (s : WAState)
    (h : WAInv s) : WAInv ((waRun sched t s n).2) := by
  induction n generalizing t s with
  | zero => simpa [waRun] using h
  | succ n ih =>
    simp only [waRun]
    by_cases hd : s.allDone
    · simpa [hd] using h
    · simp only [hd, Bool.false_eq_true, if_false]
      exact ih _ _ (waStep_inv _ _ h)

theorem waInit_inv (guards : List (Nat → Bool)) (payload : Nat → Bool) :
    WAInv (waInit guards payload) := by
  constructor
  · intro hcc
    simp [waInit] at hcc
  · intro hdone
    rw [WAState.allDone_iff] at hdone
    have hlast : (waInit guards payload).branches[guards.length]?
        = some ⟨false, payload, WABranchPhase.toRun 0⟩ := by
      simp [waInit, List.getElem?_append_right]
    have := hdone guards.length _ hlast
    simp at this

theorem waInit_noFailGood (guards : List (Nat → Bool)) (payload : Nat → Bool)
    (h : ∀ g ∈ guards, ∀ j, g j = true) :
    WANoFailGood (waInit guards payload) := by
  refine ⟨rfl, ?_, ?_⟩
  · intro b hb
    simp only [waInit, List.mem_append, List.mem_map, List.mem_singleton] at hb
    rcases hb with ⟨g, hg, rfl⟩ | rfl <;> simp
  · intro b hb hallow j
    simp only [waInit, List.mem_append, List.mem_map, List.mem_singleton] at hb
    rcases hb with ⟨g, hg, rfl⟩ | rfl
    · exact h g hg j
    · simp at hallow

/-- C5: over the cooperative WhileAll model, under every schedule:
(1) whenever `AsyncWhileAll::run` completes it returns `false`
(`Failure`) — the node never returns `Success`;
(2) if no guard script ever fails, the node never completes (perpetually
`Running`) no matter how long it is driven — guards succeeding and the
payload completing (even failing) are reset and restarted instead of
completing the node;
(3) if the node does complete, some allow-failure (guard) branch ran a
pass returning `false` and that failing run is recorded in the trace;
(4) once the cancellation token has fired, no branch performs any
further externally visible work (the trace is frozen);
(5) pointwise: a failing guard pass cancels every sibling in the same
step with its own failing run as the only new event; a guard pass
returning `Success` or any payload pass yields and then resets/restarts
the child rather than finishing; a reset step restarts the next pass. -/
theorem claim_C5_whileall_semantics :
    (∀ (sched : Nat → Nat) (t : Nat) (s : WAState) (n : Nat) (res : Bool),
        (waRun sched t s n).1 = some res → res = false) ∧
      (∀ (sched : Nat → Nat) (t : Nat) (guards : List (Nat → Bool))
          (payload : Nat → Bool) (n : Nat),
        (∀ g ∈ guards, ∀ j, g j = true) →
        (waRun sched t (waInit guards payload) n).1 = none) ∧
      (∀ (sched : Nat → Nat) (t : Nat) (guards : List (Nat → Bool))
          (payload : Nat → Bool) (n : Nat) (res : Bool),
        (waRun sched t (waInit guards payload) n).1 = some res →
        ∃ (i j : Nat) (b : WABranch),
          ((waRun sched t (waInit guards payload) n).2).branches[i]? = some b ∧
          b.allowFailure = true ∧ b.script j = false ∧
          WAEvent.ran i j false ∈ ((waRun sched t (waInit guards payload) n).2).trace) ∧
      (∀ (sched : Nat → Nat) (t : Nat) (s : WAState) (n : Nat),
        s.cancelled = true → ((waRun sched t s n).2).trace = s.trace) ∧
      (∀ (i j : Nat) (b : WABranch), b.phase = WABranchPhase.toRun j →
        b.allowFailure = true → b.script j = false →
        pollBranch i false b
          = ({ b with phase := WABranchPhase.done }, true, [WAEvent.ran i j false])) ∧
      (∀ (i j : Nat) (b : WABranch), b.phase = WABranchPhase.toRun j →
        (b.allowFailure = false ∨ b.script j = true) →
        pollBranch i false b
          = ({ b with phase := WABranchPhase.toYield j }, false,
            [WAEvent.ran i j (b.script j)])) ∧
      (∀ (i j : Nat) (b : WABranch), b.phase = WABranchPhase.toReset j →
        pollBranch i false b
          = ({ b with phase := WABranchPhase.toRun (j + 1) }, false,
            [WAEvent.didReset i j])) := by
  refine ⟨?_, ?_, ?_, ?_, ?_, ?_, ?_⟩
  · intro sched t s n res h
    exact waRun_some_false n sched t s res h
  · intro sched t guards payload n h
    exact waRun_none_of_noFail n sched t (waInit guards payload)
      (waInit_noFailGood guards payload h) (by simp [waInit])
  · intro sched t guards payload n res h
    have hinv := waRun_inv n sched t (waInit guards payload)
      (waInit_inv guards payload)
    have hdone := waRun_some_allDone n sched t (waInit guards payload) res h
    exact hinv.1 (hinv.2 hdone)
  · intro sched t s n h
    exact (waRun_cancelled_frozen n sched t s h).1
  · intro i j b hph hallow hsj
    simp [pollBranch, hph, hallow, hsj]
  · intro i j b hph hcase
    rcases hcase with hcase | hcase
    · simp [pollBranch, hph, hcase]
    · cases hall : b.allowFailure <;> simp [pollBranch, hph, hall, hcase]
  · intro i j b hph
    simp [pollBranch, hph]

theorem claim_C5_whileall_semantics_witness :
    (waRun id 0 (waInit [fun _ => true] (fun _ => false)) 12).1 = none ∧
      (∃ (i j : Nat) (b : WABranch),
        ((waRun id 0 (waInit [fun _ => false] (fun _ => true)) 3).2).branches[i]? = some b ∧
          b.allowFailure = true ∧ b.script j = false ∧
          WAEvent.ran i j false
            ∈ ((waRun id 0 (waInit [fun _ => false] (fun _ => true)) 3).2).trace) := by
  constructor
  · exact claim_C5_whileall_semantics.2.1 id 0 [fun _ => true] (fun _ => false) 12
      (by
        intro g hg j
        simp only [List.mem_singleton] at hg
        subst hg
        rfl)
  · exact claim_C5_whileall_semantics.2.2.1 id 0 [fun _ => false] (fun _ => true) 3 false rfl
